import Mathlib

/-!
Verification of the hgemm WMMA sample repository.

Shallow embedding conventions:
* half/float values are carried exactly as rationals (`ℚ`); the rounding
  performed by floating-point hardware is kept abstract, as explicit function
  parameters (`fadd`, `fmul`, `f2h`, ...) wherever the C++ code performs an
  arithmetic operation or a cast.
* global buffers are total functions `ℕ → ℚ`; a kernel's effect is the list of
  `(address, value)` stores it issues.
* compile-time configuration structs become namespaces of `ℕ` constants copied
  from the source.
-/

/-- Modelled from the spec: the 16×16 hardware MMA tile size `wmma_tile`
(defined in `kernels/common.hpp`, which is not under `src/`). -/
def wmma_tile : ℕ := 16

/-- Layout tag of the dense matrix storage abstraction. -/
inductive matrix_layout where
  | row_major : matrix_layout
  | col_major : matrix_layout
deriving DecidableEq

/-- Modelled from the spec: the matrix storage abstraction (`common/matrix.hpp`
is not under `src/`): an immutable shape (rows, cols), a layout tag and an
owned contiguous element buffer; element (i,j) of a row-major matrix lives at
buffer offset `i*cols + j`, of a column-major matrix at `j*rows + i`. -/
structure matrix where
  rows : ℕ
  cols : ℕ
  layout : matrix_layout
  data : List ℚ
deriving DecidableEq

/-- Buffer offset of logical element (i, j) under the matrix's layout tag. -/
def matrix.idx (m : matrix) (i j : ℕ) : ℕ :=
  match m.layout with
  | matrix_layout.row_major => i * m.cols + j
  | matrix_layout.col_major => j * m.rows + i

/-- Logical element access `m(i, j)`: the buffer cell at `m.idx i j`. -/
def matrix.elem (m : matrix) (i j : ℕ) : ℚ :=
  m.data.getD (m.idx i j) 0

/-- Write `v` into cell (i, j): `C(i, j) = v` in `hgemm_cpu`. -/
def writeCell (C : matrix) (i j : ℕ) (v : ℚ) : matrix :=
  { C with data := C.data.set (C.idx i j) v }

/-- The inner reduction loop of `hgemm_cpu` (hgemm.hpp lines 27-31):
`float acc = 0.0f; for k in [0, A.cols()): acc += float(A(i,k)) * float(B(k,j))`.
`fadd`/`fmul` are the single-precision operations, `h2f` the half→float cast. -/
def cpuAcc (fadd fmul : ℚ → ℚ → ℚ) (h2f : ℚ → ℚ) (A B : matrix) (i j : ℕ) : ℚ :=
  (List.range A.cols).foldl
    (fun acc k => fadd acc (fmul (h2f (A.elem i k)) (h2f (B.elem k j)))) 0

/-- CPU reference implementation `hgemm_cpu` (hgemm.hpp lines 20-35): the
triple loop over `i < C.rows()`, `j < C.cols()`, `k < A.cols()`, storing
`C(i, j) = (half)acc` once per element; `f2h` is the float→half cast. -/
def hgemm_cpu (fadd fmul : ℚ → ℚ → ℚ) (h2f f2h : ℚ → ℚ) (C A B : matrix) : matrix :=
  (List.range C.rows).foldl
    (fun Ci i =>
      (List.range C.cols).foldl
        (fun Cj j => writeCell Cj i j (f2h (cpuAcc fadd fmul h2f A B i j))) Ci)
    C

/-- Relative difference used by `verify_results` (hgemm.hpp line 52):
`abs_diff / max(|cpu|, 1e-5)`. -/
def rel_diff (gpu cpu : ℚ) : ℚ :=
  |gpu - cpu| / max |cpu| (1 / 100000)

/-- The data printed on a failed verification (hgemm.hpp lines 56-58):
location, GPU value, reference value and relative error. -/
structure VerifyReport where
  i : ℕ
  j : ℕ
  gpu : ℚ
  cpu : ℚ
  rel : ℚ
deriving DecidableEq

/-- Row-major scan order of the nested loops of `verify_results`. -/
def scanPairs (rows cols : ℕ) : List (ℕ × ℕ) :=
  (List.range rows).flatMap (fun i => (List.range cols).map (fun j => (i, j)))

/-- `verify_results` (hgemm.hpp lines 40-65): scans elements in row-major
order, returns `false` at the first element whose relative difference exceeds
the tolerance together with the report it prints, else returns `true`. -/
def verify_results (gpu cpu : matrix) (tol : ℚ) : Bool × Option VerifyReport :=
  match (scanPairs gpu.rows gpu.cols).find?
      (fun p => tol < rel_diff (gpu.elem p.1 p.2) (cpu.elem p.1 p.2)) with
  | some p =>
      (false, some ⟨p.1, p.2, gpu.elem p.1 p.2, cpu.elem p.1 p.2,
                    rel_diff (gpu.elem p.1 p.2) (cpu.elem p.1 p.2)⟩)
  | none => (true, none)

/-- `ceil_div` used by every host-side dispatcher. -/
def ceil_div (a b : ℕ) : ℕ := (a + b - 1) / b

namespace config_s

/-- `wmma_config<kernel_type::wmma_shared>` constants (part_003 lines 31-48). -/
def block_m : ℕ := 128

def block_n : ℕ := 64

def block_k : ℕ := 64

def lds_stride_A : ℕ := block_m

def lds_stride_B : ℕ := block_n

def lds_size : ℕ := block_m * block_k + block_k * block_n

def warps_m : ℕ := block_m / wmma_tile

def warps_n : ℕ := block_n / wmma_tile

def total_warps : ℕ := warps_m * warps_n

/-- In the wmma_shared kernel each warp computes a single 16×16 tile
(warp_m_offset = warp_m_idx * wmma_tile), i.e. a 1×1 warp tile. -/
def warp_tile_m : ℕ := 1

def warp_tile_n : ℕ := 1

/-- `__shared__ half lds_mem[config_s::lds_size]` (part_003 line 75). -/
def lds_alloc : ℕ := lds_size

/-- Single-buffered staging: the kernel reloads the one buffer each K-step. -/
def buffering_depth : ℕ := 1

end config_s

namespace config_p

/-- `wmma_config<kernel_type::wmma_prefetch>` constants (part_005 lines 31-54). -/
def warps_m : ℕ := 4

def warps_n : ℕ := 4

def total_warps : ℕ := warps_m * warps_n

def warp_tile_m : ℕ := 4

def warp_tile_n : ℕ := 4

def block_m : ℕ := warps_m * warp_tile_m * wmma_tile

def block_n : ℕ := warps_n * warp_tile_n * wmma_tile

def block_k : ℕ := wmma_tile

def lds_stride_A : ℕ := block_m

def lds_stride_B : ℕ := block_n

def lds_size : ℕ := block_m * block_k + block_k * block_n

def vector_width : ℕ := 16

/-- `__shared__ half lds_mem[2 * config_p::lds_size]` (part_005 line 90). -/
def lds_alloc : ℕ := 2 * lds_size

def buffering_depth : ℕ := 2

end config_p

namespace config_wbv

/-- `wmma_config<kernel_type::wmma_shared_warp_buf_vec>` constants
(part_005 lines 434-458). -/
def warps_m : ℕ := 4

def warps_n : ℕ := 4

def total_warps : ℕ := warps_m * warps_n

def warp_tile_m : ℕ := 4

def warp_tile_n : ℕ := 4

def block_m : ℕ := warps_m * warp_tile_m * wmma_tile

def block_n : ℕ := warps_n * warp_tile_n * wmma_tile

def block_k : ℕ := 32

def lds_stride_A : ℕ := block_m

def lds_stride_B : ℕ := block_n

def lds_size : ℕ := block_m * block_k + block_k * block_n

def vector_width : ℕ := 16

/-- `__shared__ half lds_mem[2][config_wbv::lds_size]` (part_005 line 488). -/
def lds_alloc : ℕ := 2 * lds_size

def buffering_depth : ℕ := 2

end config_wbv

namespace config_o1

/-- `wmma_config<kernel_type::wmma_opt_1>` constants (part_004 lines 31-55);
`vector_width = sizeof(float8)/sizeof(half) = 16`. -/
def warps_m : ℕ := 4

def warps_n : ℕ := 4

def total_warps : ℕ := warps_m * warps_n

def warp_tile_m : ℕ := 4

def warp_tile_n : ℕ := 4

def block_m : ℕ := warps_m * warp_tile_m * wmma_tile

def block_n : ℕ := warps_n * warp_tile_n * wmma_tile

def block_k : ℕ := 32

def lds_size : ℕ := block_m * block_k + block_k * block_n

def vector_width : ℕ := 16

/-- Modelled from the spec: the wmma_opt_1 kernel body is not under `src/`
(part_004 only declares it); its documentation says it double-buffers the
global→shared stage, so the staging declaration holds two buffer pairs, as in
the prefetch and wmma_opt_2 kernels. -/
def lds_alloc : ℕ := 2 * lds_size

def buffering_depth : ℕ := 2

end config_o1

namespace config_o2

/-- `wmma_config<kernel_type::wmma_opt_2>` constants (llm_focus.md lines
82-107); `vector_width = sizeof(float8)/sizeof(half) = 16`. -/
def warps_m : ℕ := 4

def warps_n : ℕ := 4

def total_warps : ℕ := warps_m * warps_n

def warp_tile_m : ℕ := 4

def warp_tile_n : ℕ := 4

def block_m : ℕ := warps_m * warp_tile_m * wmma_tile

def block_n : ℕ := warps_n * warp_tile_n * wmma_tile

def block_k : ℕ := 32

def lds_stride_A : ℕ := block_m

def lds_stride_B : ℕ := block_n

def lds_size : ℕ := block_m * block_k + block_k * block_n

def vector_width : ℕ := 16

/-- `__shared__ half lds_mem[2 * config_o2::lds_size]` (llm_focus.md line 156). -/
def lds_alloc : ℕ := 2 * lds_size

def buffering_depth : ℕ := 2

end config_o2

/-- Grid of `hgemm_gpu<wmma_shared>` (part_003 line 206). -/
def grid_dim_shared (M N : ℕ) : ℕ × ℕ :=
  (ceil_div M config_s.block_m, ceil_div N config_s.block_n)

/-- Grid of `hgemm_gpu<wmma_prefetch>` (part_005 line 397). -/
def grid_dim_prefetch (M N : ℕ) : ℕ × ℕ :=
  (ceil_div M config_p.block_m, ceil_div N config_p.block_n)

/-- Grid of `hgemm_gpu<wmma_shared_warp_buf_vec>` (part_005 line 776). -/
def grid_dim_wbv (M N : ℕ) : ℕ × ℕ :=
  (ceil_div M config_wbv.block_m, ceil_div N config_wbv.block_n)

/-- Grid of `hgemm_gpu<wmma_naive>` (wmma.hpp lines 230-232): block_dim is
(32*4, 4), so the per-block output tile is (16*128/32) × (16*4) = 64 × 64. -/
def grid_dim_naive (M N : ℕ) : ℕ × ℕ :=
  (ceil_div M (wmma_tile * 128 / 32), ceil_div N (wmma_tile * 4))

/-- 1-D grid of `hgemm_gpu<kernel_type::wmma_opt_2>` (llm_focus.md lines
517-521): `grid_m * grid_n` blocks in a single dimension. -/
def total_blocks_opt2 (M N : ℕ) : ℕ :=
  ((M + config_o2.block_m - 1) / config_o2.block_m)
    * ((N + config_o2.block_n - 1) / config_o2.block_n)

/-- `g` is exactly the number of tiles of size `b` needed to cover `M`:
`g*b` reaches `M` and `g` is minimal with that property. -/
def covers (g b M : ℕ) : Prop := M ≤ g * b ∧ (g - 1) * b < M

/-- The stores issued by `store_matrix` (wmma.hpp lines 154-169) for one lane:
`data[(row + r) * N + offset] = frag[i * 2]` with `r = i*2 + half_warp_id` and
`offset = col + lane`; the function receives `M` but performs no bounds check
on either coordinate. -/
def store_matrix_writes (frag : ℕ → ℚ) (row col M N lane half_warp_id : ℕ) :
    List (ℕ × ℚ) :=
  (List.range (wmma_tile / 2)).map (fun i =>
    ((row + (i * 2 + half_warp_id)) * N + (col + lane), frag (i * 2)))

/-- The value the boundary policy of §4.2 must stage for A at tile-local
coordinates (row, col): the global element when `block_row + row < M ∧ col' < K`
holds, and exactly zero otherwise. The A staging buffer is column-major with
stride `block_m`, and global A is column-major, so element (row, col') of the
tile lives at global offset `block_row + col' * M + row`. -/
def staged_a_value (a : ℕ → ℚ) (block_row M : ℕ) (kcol : ℕ) (K row : ℕ) : ℚ :=
  if block_row + row < M ∧ kcol < K then a (block_row + kcol * M + row) else 0

/-- The value the boundary policy of §4.2 must stage for B at tile-local
coordinates (row', col): the global element when `row' < K ∧ block_col + col < N`
holds, and exactly zero otherwise; B and its staging buffer are row-major. -/
def staged_b_value (b : ℕ → ℚ) (block_col N : ℕ) (krow : ℕ) (K col : ℕ) : ℚ :=
  if krow < K ∧ block_col + col < N then b (block_col + krow * N + col) else 0

/-- One chunk of the initial A staging transfer of the
wmma_shared_warp_buf_vec kernel (part_005 lines 537-563): a wide 16-element
vector copy when the whole vector is in bounds, otherwise an element-wise
copy writing zero at out-of-bounds positions. The Bool records which branch
was taken. Identical code appears in the wmma_opt_2 kernel (llm_focus.md
lines 202-232). -/
def wbv_stage_a_init (a : ℕ → ℚ) (block_row M K i : ℕ) : Bool × List (ℕ × ℚ) :=
  let col := i / config_wbv.block_m
  let row := i % config_wbv.block_m
  if block_row + row + config_wbv.vector_width - 1 < M ∧ col < K then
    (true, (List.range config_wbv.vector_width).map (fun v =>
      (col * config_wbv.lds_stride_A + row + v, a (block_row + col * M + row + v))))
  else
    (false, (List.range config_wbv.vector_width).map (fun v =>
      (col * config_wbv.lds_stride_A + row + v,
       if block_row + row + v < M ∧ col < K then a (block_row + col * M + row + v)
       else 0)))

/-- One chunk of the initial B staging transfer of the
wmma_shared_warp_buf_vec kernel (part_005 lines 569-595); identical code
appears in the wmma_opt_2 kernel (llm_focus.md lines 237-267). -/
def wbv_stage_b_init (b : ℕ → ℚ) (block_col N K i : ℕ) : Bool × List (ℕ × ℚ) :=
  let row := i / config_wbv.block_n
  let col := i % config_wbv.block_n
  if row < K ∧ block_col + col + config_wbv.vector_width - 1 < N then
    (true, (List.range config_wbv.vector_width).map (fun v =>
      (row * config_wbv.lds_stride_B + col + v, b (block_col + row * N + col + v))))
  else
    (false, (List.range config_wbv.vector_width).map (fun v =>
      (row * config_wbv.lds_stride_B + col + v,
       if row < K ∧ block_col + col + v < N then b (block_col + row * N + col + v)
       else 0)))

/-- One chunk of the steady-state A staging transfer (prefetch of K-slice
`k_tile + block_k`) of the wmma_shared_warp_buf_vec kernel (part_005 lines
615-644); `next_A = A + block_row + (k_tile + block_k) * M`. Identical code
appears in the wmma_opt_2 kernel (llm_focus.md lines 283-313). -/
def wbv_stage_a_next (a : ℕ → ℚ) (block_row M K k_tile i : ℕ) :
    Bool × List (ℕ × ℚ) :=
  let col := i / config_wbv.block_m
  let row := i % config_wbv.block_m
  if block_row + row + config_wbv.vector_width - 1 < M
      ∧ k_tile + config_wbv.block_k + col < K then
    (true, (List.range config_wbv.vector_width).map (fun v =>
      (col * config_wbv.lds_stride_A + row + v,
       a (block_row + (k_tile + config_wbv.block_k + col) * M + row + v))))
  else
    (false, (List.range config_wbv.vector_width).map (fun v =>
      (col * config_wbv.lds_stride_A + row + v,
       if block_row + row + v < M ∧ k_tile + config_wbv.block_k + col < K then
         a (block_row + (k_tile + config_wbv.block_k + col) * M + row + v)
       else 0)))

/-- One chunk of the steady-state B staging transfer of the
wmma_shared_warp_buf_vec kernel (part_005 lines 650-679); identical code
appears in the wmma_opt_2 kernel (llm_focus.md lines 359-390). -/
def wbv_stage_b_next (b : ℕ → ℚ) (block_col N K k_tile i : ℕ) :
    Bool × List (ℕ × ℚ) :=
  let row := i / config_wbv.block_n
  let col := i % config_wbv.block_n
  if k_tile + config_wbv.block_k + row < K
      ∧ block_col + col + config_wbv.vector_width - 1 < N then
    (true, (List.range config_wbv.vector_width).map (fun v =>
      (row * config_wbv.lds_stride_B + col + v,
       b (block_col + (k_tile + config_wbv.block_k + row) * N + col + v))))
  else
    (false, (List.range config_wbv.vector_width).map (fun v =>
      (row * config_wbv.lds_stride_B + col + v,
       if k_tile + config_wbv.block_k + row < K ∧ block_col + col + v < N then
         b (block_col + (k_tile + config_wbv.block_k + row) * N + col + v)
       else 0)))

/-- One chunk of the initial A staging transfer of the wmma_prefetch kernel
(part_005 lines 147-173): the wide register load is issued only when the whole
vector is in bounds (no element-wise fallback, lines 154-160), and the register
buffer is then stored to staging memory unconditionally (lines 163-173), so a
chunk that straddles the boundary stages the prior register contents `regOld`.
The A-side store loop bound reads `block_k * block_n`, which for this
configuration equals `block_m * block_k`. -/
def prefetch_stage_a_init (regOld : ℕ → ℚ) (a : ℕ → ℚ) (block_row M K i : ℕ) :
    List (ℕ × ℚ) :=
  let col := i / config_p.block_m
  let row := i % config_p.block_m
  let reg : ℕ → ℚ :=
    if block_row + row + config_p.vector_width - 1 < M ∧ col < K then
      fun v => a (block_row + col * M + row + v)
    else regOld
  (List.range config_p.vector_width).map (fun v =>
    (col * config_p.lds_stride_A + row + v, reg v))

/-- One chunk of the initial B staging transfer of the wmma_prefetch kernel
(part_005 lines 179-205): wide register load only when fully in bounds,
unconditional store of the register buffer. -/
def prefetch_stage_b_init (regOld : ℕ → ℚ) (b : ℕ → ℚ) (block_col N K i : ℕ) :
    List (ℕ × ℚ) :=
  let row := i / config_p.block_n
  let col := i % config_p.block_n
  let reg : ℕ → ℚ :=
    if row < K ∧ block_col + col + config_p.vector_width - 1 < N then
      fun v => b (block_col + row * N + col + v)
    else regOld
  (List.range config_p.vector_width).map (fun v =>
    (row * config_p.lds_stride_B + col + v, reg v))

/-- Apply a list of `(address, value)` stores to a global buffer, in order. -/
def applyWrites (C : ℕ → ℚ) (ws : List (ℕ × ℚ)) : ℕ → ℚ :=
  ws.foldl (fun f w => Function.update f w.1 w.2) C

/-- Execute a grid launch: each block of `order` applies its stores to the
output buffer, in the given scheduling order. -/
def runBlocks (bw : ℕ × ℕ → List (ℕ × ℚ)) (order : List (ℕ × ℕ))
    (C0 : ℕ → ℚ) : ℕ → ℚ :=
  order.foldl (fun Cacc blk => applyWrites Cacc (bw blk)) C0

/-- Net content of the A staging buffer consumed at K-iteration `t` of the
wmma_shared_warp_buf_vec kernel. The cooperating threads cover the chunk
starts `i = 16 * n` for `n < block_m * block_k / 16`, and the chunk starting
at `i` writes exactly the staging offsets `[i, i + 16)` in order (its write
`v` lands at `(i / block_m) * lds_stride_A + i % block_m + v = i + v`, since
`lds_stride_A = block_m`); hence the cell at `idx` is write `idx % 16` of the
chunk starting at `idx - idx % 16`. Iteration 0 is staged by the initial
transfer (part_005 lines 533-563), iteration `t ≥ 1` by the steady-state
prefetch issued at `k_tile = (t - 1) * block_k` (part_005 lines 611-645). -/
def wbv_lds_a_tile (a : ℕ → ℚ) (block_row M K t : ℕ) : ℕ → ℚ :=
  fun idx =>
    let chunk := config_wbv.vector_width * (idx / config_wbv.vector_width)
    let ws :=
      if t = 0 then (wbv_stage_a_init a block_row M K chunk).2
      else (wbv_stage_a_next a block_row M K ((t - 1) * config_wbv.block_k) chunk).2
    (ws.getD (idx % config_wbv.vector_width) (0, 0)).2

/-- Net content of the B staging buffer consumed at K-iteration `t` of the
wmma_shared_warp_buf_vec kernel (part_005 lines 565-596 and 646-680); chunk
`i` covers staging offsets `[i, i + 16)` exactly as for A. -/
def wbv_lds_b_tile (b : ℕ → ℚ) (block_col N K t : ℕ) : ℕ → ℚ :=
  fun idx =>
    let chunk := config_wbv.vector_width * (idx / config_wbv.vector_width)
    let ws :=
      if t = 0 then (wbv_stage_b_init b block_col N K chunk).2
      else (wbv_stage_b_next b block_col N K ((t - 1) * config_wbv.block_k) chunk).2
    (ws.getD (idx % config_wbv.vector_width) (0, 0)).2

/-- A-fragment load of the wmma_shared_warp_buf_vec kernel (part_005 lines
687-699): element `fi` is staging cell
`k_offset * lds_stride_A + warp_m_base + wm * wmma_tile + half_lane + fi * lds_stride_A`. -/
def wbv_a_frag_load (lds : ℕ → ℚ) (warp_row wm half_lane k_offset : ℕ) : ℕ → ℚ :=
  fun fi => lds (k_offset * config_wbv.lds_stride_A
    + (warp_row * config_wbv.warp_tile_m * wmma_tile + wm * wmma_tile + half_lane)
    + fi * config_wbv.lds_stride_A)

/-- B-fragment load of the wmma_shared_warp_buf_vec kernel (part_005 lines
701-713). -/
def wbv_b_frag_load (lds : ℕ → ℚ) (warp_col wn half_lane k_offset : ℕ) : ℕ → ℚ :=
  fun fi => lds (k_offset * config_wbv.lds_stride_B
    + (warp_col * config_wbv.warp_tile_n * wmma_tile + wn * wmma_tile + half_lane)
    + fi * config_wbv.lds_stride_B)

/-- Accumulator fragment `c_frags[wm][wn]` of one warp of the
wmma_shared_warp_buf_vec kernel after the whole K reduction (part_005 lines
604-738): zero-initialized, then advanced by one `mma` call per
`(k_tile, k_offset)` with `k_tile` stepping by `block_k` while `< K` and
`k_offset` in `{0, wmma_tile}`. The hardware intrinsic
`__builtin_amdgcn_wmma_f16_16x16x16_f16_w32` is the abstract parameter `mma`,
viewed per half-warp lane. -/
def wbv_c_frag (mma : (ℕ → ℚ) → (ℕ → ℚ) → (ℕ → ℚ) → (ℕ → ℚ))
    (a b : ℕ → ℚ) (M N K bx gy warp_row warp_col wm wn half_lane : ℕ) : ℕ → ℚ :=
  (List.range (ceil_div K config_wbv.block_k)).foldl (fun c t =>
    ([0, wmma_tile] : List ℕ).foldl (fun c2 k_offset =>
      mma (wbv_a_frag_load (wbv_lds_a_tile a (bx * config_wbv.block_m) M K t)
             warp_row wm half_lane k_offset)
          (wbv_b_frag_load (wbv_lds_b_tile b (gy * config_wbv.block_n) N K t)
             warp_col wn half_lane k_offset)
          c2) c)
    (fun _ => 0)

/-- The global stores issued by one block of the wmma_shared_warp_buf_vec
kernel's epilogue (part_005 lines 740-756), over every warp and lane:
`C_row[row * N + n_offset] = c_frags[wm][wn][i * 2]` where
`C_row = C + (block_row + warp_m_base + wm * wmma_tile) * N + block_col + warp_n_base`,
guarded by `block_row + warp_m_base + row < M && block_col + n_offset < N`
exactly as in the source. -/
def wbv_block_writes (mma : (ℕ → ℚ) → (ℕ → ℚ) → (ℕ → ℚ) → (ℕ → ℚ))
    (a b : ℕ → ℚ) (M N K : ℕ) (blk : ℕ × ℕ) : List (ℕ × ℚ) :=
  let block_row := blk.1 * config_wbv.block_m
  let block_col := blk.2 * config_wbv.block_n
  (List.range config_wbv.total_warps).flatMap (fun warp_id =>
    let warp_row := warp_id / config_wbv.warps_n
    let warp_col := warp_id % config_wbv.warps_n
    let warp_m_base := warp_row * config_wbv.warp_tile_m * wmma_tile
    let warp_n_base := warp_col * config_wbv.warp_tile_n * wmma_tile
    (List.range 32).flatMap (fun lane =>
      let half_warp_id := lane / 16
      let half_lane := lane % 16
      (List.range config_wbv.warp_tile_m).flatMap (fun wm =>
        (List.range config_wbv.warp_tile_n).flatMap (fun wn =>
          let n_offset := wn * wmma_tile + half_lane
          (List.range (wmma_tile / 2)).filterMap (fun i =>
            let row := i * 2 + half_warp_id
            if block_row + warp_m_base + row < M ∧ block_col + n_offset < N then
              some ((block_row + warp_m_base + wm * wmma_tile + row) * N
                      + (block_col + warp_n_base + n_offset),
                    wbv_c_frag mma a b M N K blk.1 blk.2 warp_row warp_col
                      wm wn half_lane (i * 2))
            else none)))))

/-- The block grid launched by `hgemm_gpu<wmma_shared_warp_buf_vec>`, as a
list of block coordinates. -/
def wbv_grid (M N : ℕ) : List (ℕ × ℕ) :=
  (List.range (ceil_div M config_wbv.block_m)).flatMap
    (fun bx => (List.range (ceil_div N config_wbv.block_n)).map (fun gy => (bx, gy)))

/-- Full execution of the wmma_shared_warp_buf_vec kernel under a given block
scheduling order. -/
def run_wbv (mma : (ℕ → ℚ) → (ℕ → ℚ) → (ℕ → ℚ) → (ℕ → ℚ)) (a b : ℕ → ℚ)
    (M N K : ℕ) (order : List (ℕ × ℕ)) (C0 : ℕ → ℚ) : ℕ → ℚ :=
  runBlocks (wbv_block_writes mma a b M N K) order C0

/-- Modelled from the spec: the Hilbert-curve index-to-coordinate mapping used
by the locality-preserving block scheduler (`hilbert_tile_mapping` lives in
`kernels/common.hpp`, which is not under `src/`). `hilbert_d2xy k d` walks the
order-`k` Hilbert curve on the `2^k × 2^k` square: the quadrant is the top
base-4 digit `d / 4^k`, the remainder recurses, and the four quadrant
placements are the standard reflected/rotated copies of the order-`k-1`
curve. -/
def hilbert_d2xy : ℕ → ℕ → ℕ × ℕ
  | 0, _ => (0, 0)
  | k + 1, d =>
    let s := 2 ^ k
    let q := d / 4 ^ k
    let p := hilbert_d2xy k (d % 4 ^ k)
    if q = 0 then (p.2, p.1)
    else if q = 1 then (p.1, p.2 + s)
    else if q = 2 then (p.1 + s, p.2 + s)
    else (2 * s - 1 - p.2, s - 1 - p.1)

/-- Modelled from the spec: the scheduler pads the `grid_m × grid_n` block
grid to the next power-of-two bounding square (`2^k` with
`k = clog2 (max grid_m grid_n)`), walks the Hilbert curve of that square and
discards out-of-range cells; the `tile_id`-th surviving cell is the block's
coordinate. -/
def hilbert_cells (grid_m grid_n : ℕ) : List (ℕ × ℕ) :=
  let k := Nat.clog 2 (max grid_m grid_n)
  ((List.range (4 ^ k)).map (hilbert_d2xy k)).filter
    (fun p => p.1 < grid_m && p.2 < grid_n)

/-- Modelled from the spec: `hilbert_tile_mapping<block_m, block_n>(tile_id,
grid_m, grid_n, &block_row, &block_col)` returns the block's top-left global
offsets, i.e. the grid cell scaled by the block tile size (the call site in
the wmma_opt_2 kernel, llm_focus.md lines 147-153, uses `block_row` directly
as a global row offset). -/
def hilbert_tile_mapping (block_m block_n tile_id grid_m grid_n : ℕ) : ℕ × ℕ :=
  let p := (hilbert_cells grid_m grid_n).getD tile_id (0, 0)
  (p.1 * block_m, p.2 * block_n)

theorem writeCell_rows (C : matrix) (i j : ℕ) (v : ℚ) :
    (writeCell C i j v).rows = C.rows := rfl

theorem writeCell_cols (C : matrix) (i j : ℕ) (v : ℚ) :
    (writeCell C i j v).cols = C.cols := rfl

theorem writeCell_layout (C : matrix) (i j : ℕ) (v : ℚ) :
    (writeCell C i j v).layout = C.layout := rfl

theorem writeCell_length (C : matrix) (i j : ℕ) (v : ℚ) :
    (writeCell C i j v).data.length = C.data.length := List.length_set ..

theorem writeCell_idx (C : matrix) (i j i' j' : ℕ) (v : ℚ) :
    (writeCell C i j v).idx i' j' = C.idx i' j' := rfl

theorem idx_congr (C D : matrix) (h1 : C.rows = D.rows) (h2 : C.cols = D.cols)
    (h3 : C.layout = D.layout) (i j : ℕ) : C.idx i j = D.idx i j := by
  rcases C with ⟨r, c, lay, d⟩
  rcases D with ⟨r', c', lay', d'⟩
  simp only [] at h1 h2 h3
  subst h1; subst h2; subst h3; rfl

theorem idx_lt (C : matrix) (hlen : C.data.length = C.rows * C.cols)
    {i j : ℕ} (hi : i < C.rows) (hj : j < C.cols) :
    C.idx i j < C.data.length := by
  rcases C with ⟨r, c, lay, d⟩
  simp only [] at hlen hi hj ⊢
  cases lay with
  | row_major =>
      show i * c + j < d.length
      rw [hlen]
      calc i * c + j < (i + 1) * c := by
            have : (i + 1) * c = i * c + c := by ring
            omega
        _ ≤ r * c := Nat.mul_le_mul_right c hi
  | col_major =>
      show j * r + i < d.length
      rw [hlen]
      calc j * r + i < (j + 1) * r := by
            have : (j + 1) * r = j * r + r := by ring
            omega
        _ ≤ c * r := Nat.mul_le_mul_right r hj
        _ = r * c := Nat.mul_comm ..

theorem idx_inj (C : matrix) {i j i' j' : ℕ}
    (hi : i < C.rows) (hj : j < C.cols) (hi' : i' < C.rows) (hj' : j' < C.cols) :
    C.idx i' j' = C.idx i j ↔ i' = i ∧ j' = j := by
  rcases C with ⟨r, c, lay, d⟩
  simp only [] at hi hj hi' hj'
  cases lay with
  | row_major =>
      show i' * c + j' = i * c + j ↔ _
      constructor
      · intro h
        have hc : 0 < c := by omega
        have h1 : (i' * c + j') / c = i' := by
          rw [Nat.mul_comm i' c, Nat.mul_add_div hc, Nat.div_eq_of_lt hj', Nat.add_zero]
        have h2 : (i * c + j) / c = i := by
          rw [Nat.mul_comm i c, Nat.mul_add_div hc, Nat.div_eq_of_lt hj, Nat.add_zero]
        have hii : i' = i := by rw [← h1, ← h2, h]
        subst hii
        exact ⟨rfl, by omega⟩
      · rintro ⟨rfl, rfl⟩; rfl
  | col_major =>
      show j' * r + i' = j * r + i ↔ _
      constructor
      · intro h
        have hr : 0 < r := by omega
        have h1 : (j' * r + i') / r = j' := by
          rw [Nat.mul_comm j' r, Nat.mul_add_div hr, Nat.div_eq_of_lt hi', Nat.add_zero]
        have h2 : (j * r + i) / r = j := by
          rw [Nat.mul_comm j r, Nat.mul_add_div hr, Nat.div_eq_of_lt hi, Nat.add_zero]
        have hjj : j' = j := by rw [← h1, ← h2, h]
        subst hjj
        exact ⟨by omega, rfl⟩
      · rintro ⟨rfl, rfl⟩; rfl

theorem elem_writeCell (C : matrix) (i j i' j' : ℕ) (v : ℚ)
    (h : C.idx i j < C.data.length) :
    (writeCell C i j v).elem i' j'
      = if C.idx i' j' = C.idx i j then v else C.elem i' j' := by
  show (C.data.set (C.idx i j) v).getD (C.idx i' j') 0 = _
  by_cases hcase : C.idx i' j' = C.idx i j
  · rw [if_pos hcase, hcase]
    simp [List.getD_eq_getElem?_getD, List.getElem?_set_self h]
  · rw [if_neg hcase]
    have hne : C.idx i j ≠ C.idx i' j' := fun hh => hcase hh.symm
    simp [List.getD_eq_getElem?_getD, List.getElem?_set_ne hne, matrix.elem]

theorem inner_fold_shape (val : ℕ → ℚ) (i : ℕ) (n : ℕ) (C0 : matrix) :
    (((List.range n).foldl (fun Cj j => writeCell Cj i j (val j)) C0).rows = C0.rows
    ∧ ((List.range n).foldl (fun Cj j => writeCell Cj i j (val j)) C0).cols = C0.cols
    ∧ ((List.range n).foldl (fun Cj j => writeCell Cj i j (val j)) C0).layout = C0.layout
    ∧ ((List.range n).foldl (fun Cj j => writeCell Cj i j (val j)) C0).data.length
        = C0.data.length) := by
  induction n with
  | zero => exact ⟨rfl, rfl, rfl, rfl⟩
  | succ m ih =>
      rw [List.range_succ, List.foldl_append]
      exact ⟨ih.1, ih.2.1, ih.2.2.1, by
        rw [List.foldl_cons, List.foldl_nil, writeCell_length]; exact ih.2.2.2⟩

theorem inner_fold_elem (val : ℕ → ℚ) (i : ℕ) (n : ℕ) (C0 : matrix)
    (hlen : C0.data.length = C0.rows * C0.cols)
    (hi : i < C0.rows) (hn : n ≤ C0.cols)
    (i' j' : ℕ) (hi' : i' < C0.rows) (hj' : j' < C0.cols) :
    ((List.range n).foldl (fun Cj j => writeCell Cj i j (val j)) C0).elem i' j'
      = if i' = i ∧ j' < n then val j' else C0.elem i' j' := by
  induction n with
  | zero =>
      simp only [List.range_zero, List.foldl_nil]
      have : ¬ (i' = i ∧ j' < 0) := by omega
      rw [if_neg this]
  | succ m ih =>
      have hm : m ≤ C0.cols := by omega
      have ihm := ih hm
      rw [List.range_succ, List.foldl_append, List.foldl_cons, List.foldl_nil]
      set Cm := (List.range m).foldl (fun Cj j => writeCell Cj i j (val j)) C0 with hCm
      obtain ⟨hr, hc, hl, hlen2⟩ := inner_fold_shape val i m C0
      have hidx : ∀ a b2, Cm.idx a b2 = C0.idx a b2 := fun a b2 =>
        idx_congr Cm C0 hr hc hl a b2
      have hidxlt : Cm.idx i m < Cm.data.length := by
        rw [hidx, hlen2]
        exact idx_lt C0 hlen hi (by omega)
      rw [elem_writeCell Cm i m i' j' (val m) hidxlt, hidx, hidx]
      have hiff := idx_inj C0 hi (show m < C0.cols by omega) hi' hj'
      by_cases h0 : C0.idx i' j' = C0.idx i m
      · have h1 : i' = i ∧ j' = m := hiff.mp h0
        rw [if_pos h0, if_pos ⟨h1.1, by omega⟩, h1.2]
      · rw [if_neg h0, ihm]
        have hnot : ¬ (i' = i ∧ j' = m) := fun hx => h0 (hiff.mpr hx)
        by_cases h2 : i' = i ∧ j' < m
        · rw [if_pos h2, if_pos ⟨h2.1, by omega⟩]
        · have : ¬ (i' = i ∧ j' < m + 1) := by
            intro hcon
            rcases hcon with ⟨ha, hb⟩
            by_cases hjm : j' = m
            · exact hnot ⟨ha, hjm⟩
            · exact h2 ⟨ha, by omega⟩
          rw [if_neg h2, if_neg this]

theorem outer_fold_shape (val : ℕ → ℕ → ℚ) (cols : ℕ) (n : ℕ) (C0 : matrix) :
    (((List.range n).foldl
        (fun Ci i => (List.range cols).foldl
          (fun Cj j => writeCell Cj i j (val i j)) Ci) C0).rows = C0.rows
    ∧ ((List.range n).foldl
        (fun Ci i => (List.range cols).foldl
          (fun Cj j => writeCell Cj i j (val i j)) Ci) C0).cols = C0.cols
    ∧ ((List.range n).foldl
        (fun Ci i => (List.range cols).foldl
          (fun Cj j => writeCell Cj i j (val i j)) Ci) C0).layout = C0.layout
    ∧ ((List.range n).foldl
        (fun Ci i => (List.range cols).foldl
          (fun Cj j => writeCell Cj i j (val i j)) Ci) C0).data.length
        = C0.data.length) := by
  induction n with
  | zero => exact ⟨rfl, rfl, rfl, rfl⟩
  | succ m ih =>
      rw [List.range_succ, List.foldl_append, List.foldl_cons, List.foldl_nil]
      obtain ⟨h1, h2, h3, h4⟩ := inner_fold_shape (val m) m cols
        ((List.range m).foldl
          (fun Ci i => (List.range cols).foldl
            (fun Cj j => writeCell Cj i j (val i j)) Ci) C0)
      exact ⟨h1.trans ih.1, h2.trans ih.2.1, h3.trans ih.2.2.1, h4.trans ih.2.2.2⟩

theorem outer_fold_elem (val : ℕ → ℕ → ℚ) (cols : ℕ) (n : ℕ) (C0 : matrix)
    (hlen : C0.data.length = C0.rows * C0.cols) (hcols : cols = C0.cols)
    (hn : n ≤ C0.rows)
    (i' j' : ℕ) (hi' : i' < C0.rows) (hj' : j' < C0.cols) :
    ((List.range n).foldl
        (fun Ci i => (List.range cols).foldl
          (fun Cj j => writeCell Cj i j (val i j)) Ci) C0).elem i' j'
      = if i' < n ∧ j' < cols then val i' j' else C0.elem i' j' := by
  induction n with
  | zero =>
      simp only [List.range_zero, List.foldl_nil]
      have : ¬ (i' < 0 ∧ j' < cols) := by omega
      rw [if_neg this]
  | succ m ih =>
      have hm : m ≤ C0.rows := by omega
      have ihm := ih hm
      rw [List.range_succ, List.foldl_append, List.foldl_cons, List.foldl_nil]
      set Cm := (List.range m).foldl
        (fun Ci i => (List.range cols).foldl
          (fun Cj j => writeCell Cj i j (val i j)) Ci) C0 with hCm
      obtain ⟨hr, hc, hl, hlen2⟩ := outer_fold_shape val cols m C0
      have hin := inner_fold_elem (val m) m cols Cm
        (by rw [hlen2, hr, hc]; exact hlen)
        (by rw [hr]; omega) (by rw [hc, ← hcols])
        i' j' (by rw [hr]; exact hi') (by rw [hc]; exact hj')
      rw [hin, ihm]
      by_cases h1 : i' = m ∧ j' < cols
      · rw [if_pos h1]
        have : i' < m + 1 ∧ j' < cols := ⟨by omega, h1.2⟩
        rw [if_pos this, h1.1]
      · rw [if_neg h1]
        by_cases h2 : i' < m ∧ j' < cols
        · rw [if_pos h2, if_pos ⟨by omega, h2.2⟩]
        · have : ¬ (i' < m + 1 ∧ j' < cols) := by
            intro hcon
            by_cases hii : i' = m
            · exact h1 ⟨hii, hcon.2⟩
            · exact h2 ⟨by omega, hcon.2⟩
          rw [if_neg h2, if_neg this]

/-- C2: for every C, A, B in any combination of layout tags, `hgemm_cpu` sets
C(i, j), for every i < C.rows and j < C.cols, to the half-precision rounding
(`f2h`, applied exactly once) of the accumulation over k ∈ [0, A.cols()) of
`float(A(i,k)) * float(B(k,j))`, carried out entirely with the
single-precision operations `fadd`/`fmul` starting from `0.0f`. -/
theorem c2_hgemm_cpu_single_precision_accumulation
    (fadd fmul : ℚ → ℚ → ℚ) (h2f f2h : ℚ → ℚ) (C A B : matrix)
    (hlen : C.data.length = C.rows * C.cols) (i j : ℕ)
    (hi : i < C.rows) (hj : j < C.cols) :
    (hgemm_cpu fadd fmul h2f f2h C A B).elem i j
      = f2h ((List.range A.cols).foldl
          (fun acc k => fadd acc (fmul (h2f (A.elem i k)) (h2f (B.elem k j)))) 0) := by
  have h := outer_fold_elem (fun a b2 => f2h (cpuAcc fadd fmul h2f A B a b2))
    C.cols C.rows C hlen rfl (le_refl _) i j hi hj
  show ((List.range C.rows).foldl
      (fun Ci a => (List.range C.cols).foldl
        (fun Cj b2 => writeCell Cj a b2 (f2h (cpuAcc fadd fmul h2f A B a b2))) Ci) C).elem i j = _
  rw [h, if_pos ⟨hi, hj⟩]
  rfl

/-- Witness for C2 at concrete 1×1 matrices with exact rational operations. -/
theorem c2_hgemm_cpu_witness :
    (hgemm_cpu (· + ·) (· * ·) id id
        ⟨1, 1, matrix_layout.row_major, [0]⟩
        ⟨1, 1, matrix_layout.row_major, [2]⟩
        ⟨1, 1, matrix_layout.row_major, [3]⟩).elem 0 0
      = id ((List.range (matrix.cols ⟨1, 1, matrix_layout.row_major, [2]⟩)).foldl
          (fun acc k => acc
            + id ((⟨1, 1, matrix_layout.row_major, [2]⟩ : matrix).elem 0 k)
              * id ((⟨1, 1, matrix_layout.row_major, [3]⟩ : matrix).elem k 0)) 0) :=
  c2_hgemm_cpu_single_precision_accumulation (· + ·) (· * ·) id id
    ⟨1, 1, matrix_layout.row_major, [0]⟩
    ⟨1, 1, matrix_layout.row_major, [2]⟩
    ⟨1, 1, matrix_layout.row_major, [3]⟩
    (by decide) 0 0 (by decide) (by decide)

theorem foldl_congr_list {α β : Type} (f g : β → α → β) (l : List α) (b : β)
    (h : ∀ b2 a, a ∈ l → f b2 a = g b2 a) : l.foldl f b = l.foldl g b := by
  induction l generalizing b with
  | nil => rfl
  | cons x xs ih =>
      rw [List.foldl_cons, List.foldl_cons, h b x (List.mem_cons_self x xs)]
      exact ih _ (fun b2 a ha => h b2 a (List.mem_cons_of_mem x ha))

theorem cpuAcc_congr (fadd fmul : ℚ → ℚ → ℚ) (h2f : ℚ → ℚ)
    (A1 A2 B1 B2 : matrix) (i j : ℕ)
    (hA : A1.cols = A2.cols)
    (hAe : ∀ k, k < A1.cols → A1.elem i k = A2.elem i k)
    (hBe : ∀ k, k < A1.cols → B1.elem k j = B2.elem k j) :
    cpuAcc fadd fmul h2f A1 B1 i j = cpuAcc fadd fmul h2f A2 B2 i j := by
  unfold cpuAcc
  rw [← hA]
  exact foldl_congr_list _ _ _ _ (fun acc k hk => by
    rw [hAe k (List.mem_range.mp hk), hBe k (List.mem_range.mp hk)])

/-- C8: permuting only the layout tags (or, more generally, the underlying
buffers) of A and B while keeping every logical element value in range
unchanged leaves the matrix computed by `hgemm_cpu` unchanged, whenever the
shapes are consistent enough that the loops only perform in-range accesses. -/
theorem c8_layout_invariance (fadd fmul : ℚ → ℚ → ℚ) (h2f f2h : ℚ → ℚ)
    (C A1 A2 B1 B2 : matrix)
    (hA : A1.cols = A2.cols)
    (hAe : ∀ i k, i < A1.rows → k < A1.cols → A1.elem i k = A2.elem i k)
    (hBe : ∀ k j, k < B1.rows → j < B1.cols → B1.elem k j = B2.elem k j)
    (hMA : C.rows ≤ A1.rows) (hKB : A1.cols ≤ B1.rows) (hNB : C.cols ≤ B1.cols) :
    hgemm_cpu fadd fmul h2f f2h C A1 B1 = hgemm_cpu fadd fmul h2f f2h C A2 B2 := by
  unfold hgemm_cpu
  apply foldl_congr_list
  intro Ci i hi
  apply foldl_congr_list
  intro Cj j hj
  rw [cpuAcc_congr fadd fmul h2f A1 A2 B1 B2 i j hA
    (fun k hk => hAe i k (by have := List.mem_range.mp hi; omega) hk)
    (fun k hk => hBe k j (by omega) (by have := List.mem_range.mp hj; omega))]

/-- Witness for C8: a row-major and a column-major A with identical logical
values produce identical outputs. -/
theorem c8_layout_invariance_witness :
    hgemm_cpu (· + ·) (· * ·) id id
        ⟨2, 2, matrix_layout.row_major, [0, 0, 0, 0]⟩
        ⟨2, 2, matrix_layout.row_major, [1, 2, 3, 4]⟩
        ⟨2, 2, matrix_layout.row_major, [5, 6, 7, 8]⟩
      = hgemm_cpu (· + ·) (· * ·) id id
        ⟨2, 2, matrix_layout.row_major, [0, 0, 0, 0]⟩
        ⟨2, 2, matrix_layout.col_major, [1, 3, 2, 4]⟩
        ⟨2, 2, matrix_layout.col_major, [5, 7, 6, 8]⟩ :=
  c8_layout_invariance (· + ·) (· * ·) id id
    ⟨2, 2, matrix_layout.row_major, [0, 0, 0, 0]⟩
    ⟨2, 2, matrix_layout.row_major, [1, 2, 3, 4]⟩
    ⟨2, 2, matrix_layout.col_major, [1, 3, 2, 4]⟩
    ⟨2, 2, matrix_layout.row_major, [5, 6, 7, 8]⟩
    ⟨2, 2, matrix_layout.col_major, [5, 7, 6, 8]⟩
    (by decide)
    (by intro i k hi hk; interval_cases i <;> interval_cases k <;> rfl)
    (by intro k j hk hj; interval_cases k <;> interval_cases j <;> rfl)
    (by decide) (by decide) (by decide)

/-- C10: `hgemm_cpu` performs no shape validation: with A of shape 1×2 and B
of shape 1×2 stored column-major (so `A.cols() = 2 ≠ 1 = B.rows()`), it still
iterates k over [0, A.cols()) and indexes `B(k, j)` with k = 1 ≥ B.rows(),
producing 1*3 + 1*5 = 8 — it neither fails nor reconciles the reduction
length to B.rows() (which would give 1*3 = 3). -/
theorem c10_no_shape_validation :
    ((⟨1, 2, matrix_layout.row_major, [1, 1]⟩ : matrix).cols
        ≠ (⟨1, 2, matrix_layout.col_major, [3, 5]⟩ : matrix).rows)
    ∧ (hgemm_cpu (· + ·) (· * ·) id id
        ⟨1, 1, matrix_layout.row_major, [0]⟩
        ⟨1, 2, matrix_layout.row_major, [1, 1]⟩
        ⟨1, 2, matrix_layout.col_major, [3, 5]⟩).elem 0 0 = 8
    ∧ (⟨1, 2, matrix_layout.col_major, [3, 5]⟩ : matrix).elem 1 0 = 5
    ∧ ((List.range ((⟨1, 2, matrix_layout.col_major, [3, 5]⟩ : matrix).rows)).foldl
        (fun acc k => acc
          + ((⟨1, 2, matrix_layout.row_major, [1, 1]⟩ : matrix).elem 0 k
              * (⟨1, 2, matrix_layout.col_major, [3, 5]⟩ : matrix).elem k 0)) 0
        = 3)
    ∧ (8 : ℚ) ≠ 3 := by
  refine ⟨by decide, ?_, by decide, ?_, by norm_num⟩
  · norm_num [hgemm_cpu, cpuAcc, writeCell, matrix.elem, matrix.idx, List.range_succ]
  · norm_num [matrix.elem, matrix.idx, List.range_succ]

theorem mem_scanPairs (rows cols : ℕ) (p : ℕ × ℕ) :
    p ∈ scanPairs rows cols ↔ p.1 < rows ∧ p.2 < cols := by
  rcases p with ⟨i, j⟩
  simp only [scanPairs, List.mem_flatMap, List.mem_map, List.mem_range]
  constructor
  · rintro ⟨a, ha, b, hb, heq⟩
    obtain ⟨rfl, rfl⟩ : a = i ∧ b = j := by
      constructor <;> [exact congrArg Prod.fst heq; exact congrArg Prod.snd heq]
    exact ⟨ha, hb⟩
  · rintro ⟨hi, hj⟩
    exact ⟨i, hi, j, hj, rfl⟩

/-- C4: `verify_results` returns true iff every element's relative difference
`|gpu - cpu| / max(|cpu|, 1e-5)` is at most the tolerance; when it returns
false it also yields the report it prints — the location (i, j) of a violating
element, the GPU value, the reference value and the relative error — and it
returns false exactly when some element violates the bound. -/
theorem c4_verify_results_iff_and_report (gpu cpu : matrix) (tol : ℚ) :
    ((verify_results gpu cpu tol).1 = true
      ↔ ∀ i j, i < gpu.rows → j < gpu.cols →
          rel_diff (gpu.elem i j) (cpu.elem i j) ≤ tol)
    ∧ (∀ r, (verify_results gpu cpu tol).2 = some r →
        (verify_results gpu cpu tol).1 = false
        ∧ r.i < gpu.rows ∧ r.j < gpu.cols
        ∧ r.gpu = gpu.elem r.i r.j ∧ r.cpu = cpu.elem r.i r.j
        ∧ r.rel = rel_diff (gpu.elem r.i r.j) (cpu.elem r.i r.j)
        ∧ tol < r.rel)
    ∧ ((verify_results gpu cpu tol).1 = false →
        (verify_results gpu cpu tol).2.isSome) := by
  rcases hfind : (scanPairs gpu.rows gpu.cols).find?
      (fun p => tol < rel_diff (gpu.elem p.1 p.2) (cpu.elem p.1 p.2)) with _ | p
  · have hall := List.find?_eq_none.mp hfind
    have hv : verify_results gpu cpu tol = (true, none) := by
      simp only [verify_results, hfind]
    rw [hv]
    refine ⟨⟨fun _ i j hi hj => ?_, fun _ => rfl⟩,
      fun r hr => Option.noConfusion hr, fun hfalse => Bool.noConfusion hfalse⟩
    have := hall (i, j) ((mem_scanPairs gpu.rows gpu.cols (i, j)).mpr ⟨hi, hj⟩)
    simpa using this
  · have hpred := List.find?_some hfind
    have hmem := List.mem_of_find?_eq_some hfind
    have hbounds := (mem_scanPairs gpu.rows gpu.cols p).mp hmem
    have hviol : tol < rel_diff (gpu.elem p.1 p.2) (cpu.elem p.1 p.2) := by
      simpa using hpred
    have hv : verify_results gpu cpu tol
        = (false, some ⟨p.1, p.2, gpu.elem p.1 p.2, cpu.elem p.1 p.2,
            rel_diff (gpu.elem p.1 p.2) (cpu.elem p.1 p.2)⟩) := by
      simp only [verify_results, hfind]
    rw [hv]
    refine ⟨⟨fun habs => Bool.noConfusion habs, fun hall => ?_⟩,
      fun r hr => ?_, fun _ => rfl⟩
    · exact absurd (hall p.1 p.2 hbounds.1 hbounds.2) (not_le.mpr hviol)
    · obtain rfl : (⟨p.1, p.2, gpu.elem p.1 p.2, cpu.elem p.1 p.2,
          rel_diff (gpu.elem p.1 p.2) (cpu.elem p.1 p.2)⟩ : VerifyReport) = r := by
        injection hr
      exact ⟨rfl, hbounds.1, hbounds.2, rfl, rfl, rfl, hviol⟩

/-- Witness for C4: identical 1×1 matrices verify successfully. -/
theorem c4_verify_results_witness :
    (verify_results ⟨1, 1, matrix_layout.row_major, [0]⟩
        ⟨1, 1, matrix_layout.row_major, [0]⟩ (1 / 10)).1 = true :=
  (c4_verify_results_iff_and_report ⟨1, 1, matrix_layout.row_major, [0]⟩
      ⟨1, 1, matrix_layout.row_major, [0]⟩ (1 / 10)).1.mpr
    (fun i j hi hj => by
      interval_cases i
      interval_cases j
      simp [rel_diff, matrix.elem, matrix.idx])

theorem ceil_div_covers (a b : ℕ) (ha : 1 ≤ a) (hb : 1 ≤ b) :
    covers (ceil_div a b) b a := by
  unfold covers ceil_div
  set q := (a + b - 1) / b with hq
  have h1 : q * b ≤ a + b - 1 := Nat.div_mul_le_self (a + b - 1) b
  have h2 : a + b - 1 < (q + 1) * b :=
    (Nat.div_lt_iff_lt_mul hb).mp (Nat.lt_succ_self q)
  have hq1 : 1 ≤ q := by
    rw [hq]
    exact (Nat.one_le_div_iff hb).mpr (by omega)
  have h3 : (q - 1) * b + b = q * b := by
    have : q - 1 + 1 = q := Nat.succ_pred_eq_of_pos hq1
    calc (q - 1) * b + b = (q - 1 + 1) * b := (Nat.succ_mul _ _).symm
      _ = q * b := by rw [this]
  have h4 : (q + 1) * b = q * b + b := Nat.succ_mul q b
  constructor
  · omega
  · omega

/-- C6: for every M, N ≥ 1, each host-side dispatcher launches exactly the
minimal covering grid: ⌈M / block_m⌉ blocks along M and ⌈N / block_n⌉ along N
(`covers g b M` states `g * b ≥ M` with `g` minimal); the wmma_opt_2
dispatcher launches the same two counts multiplied into one 1-D grid. -/
theorem c6_dispatch_grid_dims (M N : ℕ) (hM : 1 ≤ M) (hN : 1 ≤ N) :
    covers (grid_dim_shared M N).1 config_s.block_m M
    ∧ covers (grid_dim_shared M N).2 config_s.block_n N
    ∧ covers (grid_dim_prefetch M N).1 config_p.block_m M
    ∧ covers (grid_dim_prefetch M N).2 config_p.block_n N
    ∧ covers (grid_dim_wbv M N).1 config_wbv.block_m M
    ∧ covers (grid_dim_wbv M N).2 config_wbv.block_n N
    ∧ covers (grid_dim_naive M N).1 (wmma_tile * 128 / 32) M
    ∧ covers (grid_dim_naive M N).2 (wmma_tile * 4) N
    ∧ total_blocks_opt2 M N
        = ceil_div M config_o2.block_m * ceil_div N config_o2.block_n
    ∧ covers (ceil_div M config_o2.block_m) config_o2.block_m M
    ∧ covers (ceil_div N config_o2.block_n) config_o2.block_n N :=
  ⟨ceil_div_covers M _ hM (by decide), ceil_div_covers N _ hN (by decide),
   ceil_div_covers M _ hM (by decide), ceil_div_covers N _ hN (by decide),
   ceil_div_covers M _ hM (by decide), ceil_div_covers N _ hN (by decide),
   ceil_div_covers M _ hM (by decide), ceil_div_covers N _ hN (by decide),
   rfl,
   ceil_div_covers M _ hM (by decide), ceil_div_covers N _ hN (by decide)⟩

/-- Witness for C6 at M = 257, N = 64. -/
theorem c6_dispatch_grid_dims_witness :
    covers (grid_dim_shared 257 64).1 config_s.block_m 257
    ∧ covers (grid_dim_wbv 257 64).2 config_wbv.block_n 64 :=
  ⟨(c6_dispatch_grid_dims 257 64 (by decide) (by decide)).1,
   (c6_dispatch_grid_dims 257 64 (by decide) (by decide)).2.2.2.2.2.1⟩

/-- C7: every configuration in the set satisfies
`warps_m * warp_tile_m * 16 = block_m`, `warps_n * warp_tile_n * 16 = block_n`,
and declares a staging allocation of exactly
`buffering_depth * (block_m * block_k + block_k * block_n)` half elements. -/
theorem c7_config_static_constraints :
    (config_s.warps_m * config_s.warp_tile_m * 16 = config_s.block_m
      ∧ config_s.warps_n * config_s.warp_tile_n * 16 = config_s.block_n
      ∧ config_s.lds_alloc = config_s.buffering_depth
          * (config_s.block_m * config_s.block_k
              + config_s.block_k * config_s.block_n))
    ∧ (config_p.warps_m * config_p.warp_tile_m * 16 = config_p.block_m
      ∧ config_p.warps_n * config_p.warp_tile_n * 16 = config_p.block_n
      ∧ config_p.lds_alloc = config_p.buffering_depth
          * (config_p.block_m * config_p.block_k
              + config_p.block_k * config_p.block_n))
    ∧ (config_wbv.warps_m * config_wbv.warp_tile_m * 16 = config_wbv.block_m
      ∧ config_wbv.warps_n * config_wbv.warp_tile_n * 16 = config_wbv.block_n
      ∧ config_wbv.lds_alloc = config_wbv.buffering_depth
          * (config_wbv.block_m * config_wbv.block_k
              + config_wbv.block_k * config_wbv.block_n))
    ∧ (config_o1.warps_m * config_o1.warp_tile_m * 16 = config_o1.block_m
      ∧ config_o1.warps_n * config_o1.warp_tile_n * 16 = config_o1.block_n
      ∧ config_o1.lds_alloc = config_o1.buffering_depth
          * (config_o1.block_m * config_o1.block_k
              + config_o1.block_k * config_o1.block_n))
    ∧ (config_o2.warps_m * config_o2.warp_tile_m * 16 = config_o2.block_m
      ∧ config_o2.warps_n * config_o2.warp_tile_n * 16 = config_o2.block_n
      ∧ config_o2.lds_alloc = config_o2.buffering_depth
          * (config_o2.block_m * config_o2.block_k
              + config_o2.block_k * config_o2.block_n)) := by decide

/-- C1: `store_matrix` issues a store to linear index 112 of an 8×8 output
matrix C (M = N = 8, tile origin (0,0), lane 0, half-warp 0): the address
`(row + 7*2) * N + col` lies outside the true extent `M * N = 64`, because the
store loop performs no bounds check at all. -/
theorem c1_store_matrix_out_of_bounds :
    (112, (0 : ℚ)) ∈ store_matrix_writes (fun _ => 0) 0 0 8 8 0 0
    ∧ 8 * 8 ≤ 112 := by decide

theorem wbv_stage_a_init_spec (a : ℕ → ℚ) (block_row M K i : ℕ) :
    ((wbv_stage_a_init a block_row M K i).1 = true
      ↔ block_row + i % config_wbv.block_m + config_wbv.vector_width - 1 < M
        ∧ i / config_wbv.block_m < K)
    ∧ (wbv_stage_a_init a block_row M K i).2
      = (List.range config_wbv.vector_width).map (fun v =>
          (i / config_wbv.block_m * config_wbv.lds_stride_A
              + i % config_wbv.block_m + v,
           staged_a_value a block_row M (i / config_wbv.block_m) K
             (i % config_wbv.block_m + v))) := by
  have h16 : config_wbv.vector_width = 16 := rfl
  unfold wbv_stage_a_init staged_a_value
  by_cases hcond : block_row + i % config_wbv.block_m + config_wbv.vector_width - 1 < M
      ∧ i / config_wbv.block_m < K
  · rw [if_pos hcond]
    refine ⟨iff_of_true rfl hcond, ?_⟩
    apply List.map_congr_left
    intro v hv
    have hv16 : v < 16 := List.mem_range.mp hv
    have hin : block_row + (i % config_wbv.block_m + v) < M
        ∧ i / config_wbv.block_m < K := ⟨by omega, hcond.2⟩
    rw [if_pos hin]
    have harg : block_row + i / config_wbv.block_m * M + (i % config_wbv.block_m + v)
        = block_row + i / config_wbv.block_m * M + i % config_wbv.block_m + v := by
      omega
    rw [harg]
  · rw [if_neg hcond]
    refine ⟨iff_of_false (by simp) hcond, ?_⟩
    apply List.map_congr_left
    intro v hv
    by_cases hel : block_row + i % config_wbv.block_m + v < M
        ∧ i / config_wbv.block_m < K
    · rw [if_pos hel,
        if_pos (show block_row + (i % config_wbv.block_m + v) < M
            ∧ i / config_wbv.block_m < K from ⟨by omega, hel.2⟩)]
      have harg : block_row + i / config_wbv.block_m * M + (i % config_wbv.block_m + v)
          = block_row + i / config_wbv.block_m * M + i % config_wbv.block_m + v := by
        omega
      rw [harg]
    · rw [if_neg hel,
        if_neg (show ¬ (block_row + (i % config_wbv.block_m + v) < M
            ∧ i / config_wbv.block_m < K) from fun hx => hel ⟨by omega, hx.2⟩)]

theorem wbv_stage_b_init_spec (b : ℕ → ℚ) (block_col N K i : ℕ) :
    ((wbv_stage_b_init b block_col N K i).1 = true
      ↔ i / config_wbv.block_n < K
        ∧ block_col + i % config_wbv.block_n + config_wbv.vector_width - 1 < N)
    ∧ (wbv_stage_b_init b block_col N K i).2
      = (List.range config_wbv.vector_width).map (fun v =>
          (i / config_wbv.block_n * config_wbv.lds_stride_B
              + i % config_wbv.block_n + v,
           staged_b_value b block_col N (i / config_wbv.block_n) K
             (i % config_wbv.block_n + v))) := by
  have h16 : config_wbv.vector_width = 16 := rfl
  unfold wbv_stage_b_init staged_b_value
  by_cases hcond : i / config_wbv.block_n < K
      ∧ block_col + i % config_wbv.block_n + config_wbv.vector_width - 1 < N
  · rw [if_pos hcond]
    refine ⟨iff_of_true rfl hcond, ?_⟩
    apply List.map_congr_left
    intro v hv
    have hv16 : v < 16 := List.mem_range.mp hv
    have hin : i / config_wbv.block_n < K
        ∧ block_col + (i % config_wbv.block_n + v) < N := ⟨hcond.1, by omega⟩
    rw [if_pos hin]
    have harg : block_col + i / config_wbv.block_n * N + (i % config_wbv.block_n + v)
        = block_col + i / config_wbv.block_n * N + i % config_wbv.block_n + v := by
      omega
    rw [harg]
  · rw [if_neg hcond]
    refine ⟨iff_of_false (by simp) hcond, ?_⟩
    apply List.map_congr_left
    intro v hv
    by_cases hel : i / config_wbv.block_n < K ∧ block_col + i % config_wbv.block_n + v < N
    · rw [if_pos hel,
        if_pos (show i / config_wbv.block_n < K
            ∧ block_col + (i % config_wbv.block_n + v) < N from ⟨hel.1, by omega⟩)]
      have harg : block_col + i / config_wbv.block_n * N + (i % config_wbv.block_n + v)
          = block_col + i / config_wbv.block_n * N + i % config_wbv.block_n + v := by
        omega
      rw [harg]
    · rw [if_neg hel,
        if_neg (show ¬ (i / config_wbv.block_n < K
            ∧ block_col + (i % config_wbv.block_n + v) < N) from
          fun hx => hel ⟨hx.1, by omega⟩)]

theorem wbv_stage_a_next_spec (a : ℕ → ℚ) (block_row M K k_tile i : ℕ) :
    ((wbv_stage_a_next a block_row M K k_tile i).1 = true
      ↔ block_row + i % config_wbv.block_m + config_wbv.vector_width - 1 < M
        ∧ k_tile + config_wbv.block_k + i / config_wbv.block_m < K)
    ∧ (wbv_stage_a_next a block_row M K k_tile i).2
      = (List.range config_wbv.vector_width).map (fun v =>
          (i / config_wbv.block_m * config_wbv.lds_stride_A
              + i % config_wbv.block_m + v,
           staged_a_value a block_row M
             (k_tile + config_wbv.block_k + i / config_wbv.block_m) K
             (i % config_wbv.block_m + v))) := by
  have h16 : config_wbv.vector_width = 16 := rfl
  unfold wbv_stage_a_next staged_a_value
  by_cases hcond : block_row + i % config_wbv.block_m + config_wbv.vector_width - 1 < M
      ∧ k_tile + config_wbv.block_k + i / config_wbv.block_m < K
  · rw [if_pos hcond]
    refine ⟨iff_of_true rfl hcond, ?_⟩
    apply List.map_congr_left
    intro v hv
    have hv16 : v < 16 := List.mem_range.mp hv
    have hin : block_row + (i % config_wbv.block_m + v) < M
        ∧ k_tile + config_wbv.block_k + i / config_wbv.block_m < K := ⟨by omega, hcond.2⟩
    rw [if_pos hin]
    have harg : block_row
          + (k_tile + config_wbv.block_k + i / config_wbv.block_m) * M
          + (i % config_wbv.block_m + v)
        = block_row + (k_tile + config_wbv.block_k + i / config_wbv.block_m) * M
          + i % config_wbv.block_m + v := by
      omega
    rw [harg]
  · rw [if_neg hcond]
    refine ⟨iff_of_false (by simp) hcond, ?_⟩
    apply List.map_congr_left
    intro v hv
    by_cases hel : block_row + i % config_wbv.block_m + v < M
        ∧ k_tile + config_wbv.block_k + i / config_wbv.block_m < K
    · rw [if_pos hel,
        if_pos (show block_row + (i % config_wbv.block_m + v) < M
            ∧ k_tile + config_wbv.block_k + i / config_wbv.block_m < K from
          ⟨by omega, hel.2⟩)]
      have harg : block_row
            + (k_tile + config_wbv.block_k + i / config_wbv.block_m) * M
            + (i % config_wbv.block_m + v)
          = block_row + (k_tile + config_wbv.block_k + i / config_wbv.block_m) * M
            + i % config_wbv.block_m + v := by
        omega
      rw [harg]
    · rw [if_neg hel,
        if_neg (show ¬ (block_row + (i % config_wbv.block_m + v) < M
            ∧ k_tile + config_wbv.block_k + i / config_wbv.block_m < K) from
          fun hx => hel ⟨by omega, hx.2⟩)]

theorem wbv_stage_b_next_spec (b : ℕ → ℚ) (block_col N K k_tile i : ℕ) :
    ((wbv_stage_b_next b block_col N K k_tile i).1 = true
      ↔ k_tile + config_wbv.block_k + i / config_wbv.block_n < K
        ∧ block_col + i % config_wbv.block_n + config_wbv.vector_width - 1 < N)
    ∧ (wbv_stage_b_next b block_col N K k_tile i).2
      = (List.range config_wbv.vector_width).map (fun v =>
          (i / config_wbv.block_n * config_wbv.lds_stride_B
              + i % config_wbv.block_n + v,
           staged_b_value b block_col N
             (k_tile + config_wbv.block_k + i / config_wbv.block_n) K
             (i % config_wbv.block_n + v))) := by
  have h16 : config_wbv.vector_width = 16 := rfl
  unfold wbv_stage_b_next staged_b_value
  by_cases hcond : k_tile + config_wbv.block_k + i / config_wbv.block_n < K
      ∧ block_col + i % config_wbv.block_n + config_wbv.vector_width - 1 < N
  · rw [if_pos hcond]
    refine ⟨iff_of_true rfl hcond, ?_⟩
    apply List.map_congr_left
    intro v hv
    have hv16 : v < 16 := List.mem_range.mp hv
    have hin : k_tile + config_wbv.block_k + i / config_wbv.block_n < K
        ∧ block_col + (i % config_wbv.block_n + v) < N := ⟨hcond.1, by omega⟩
    rw [if_pos hin]
    have harg : block_col
          + (k_tile + config_wbv.block_k + i / config_wbv.block_n) * N
          + (i % config_wbv.block_n + v)
        = block_col + (k_tile + config_wbv.block_k + i / config_wbv.block_n) * N
          + i % config_wbv.block_n + v := by
      omega
    rw [harg]
  · rw [if_neg hcond]
    refine ⟨iff_of_false (by simp) hcond, ?_⟩
    apply List.map_congr_left
    intro v hv
    by_cases hel : k_tile + config_wbv.block_k + i / config_wbv.block_n < K
        ∧ block_col + i % config_wbv.block_n + v < N
    · rw [if_pos hel,
        if_pos (show k_tile + config_wbv.block_k + i / config_wbv.block_n < K
            ∧ block_col + (i % config_wbv.block_n + v) < N from ⟨hel.1, by omega⟩)]
      have harg : block_col
            + (k_tile + config_wbv.block_k + i / config_wbv.block_n) * N
            + (i % config_wbv.block_n + v)
          = block_col + (k_tile + config_wbv.block_k + i / config_wbv.block_n) * N
            + i % config_wbv.block_n + v := by
        omega
      rw [harg]
    · rw [if_neg hel,
        if_neg (show ¬ (k_tile + config_wbv.block_k + i / config_wbv.block_n < K
            ∧ block_col + (i % config_wbv.block_n + v) < N) from
          fun hx => hel ⟨hx.1, by omega⟩)]

/-- C3 (amended): in the variants that implement the element-wise fallback —
wmma_shared_warp_buf_vec, and wmma_opt_2 whose staging loops are identical —
every A/B tile chunk transfer (initial and steady-state) issues the one wide
`vector_width`-element transfer exactly when the whole vector lies within the
matrix's true bounds, and in every case the chunk stages, at each of its
`vector_width` positions, the in-bounds global element or exactly zero for an
out-of-bounds position (the `staged_a_value`/`staged_b_value` boundary
policy). The wmma_prefetch variant does not obey this policy (see the
counterexample theorem). -/
theorem c3_staging_boundary_policy (a b : ℕ → ℚ)
    (block_row block_col M N K k_tile i : ℕ) :
    (((wbv_stage_a_init a block_row M K i).1 = true
        ↔ block_row + i % config_wbv.block_m + config_wbv.vector_width - 1 < M
          ∧ i / config_wbv.block_m < K)
      ∧ (wbv_stage_a_init a block_row M K i).2
        = (List.range config_wbv.vector_width).map (fun v =>
            (i / config_wbv.block_m * config_wbv.lds_stride_A
                + i % config_wbv.block_m + v,
             staged_a_value a block_row M (i / config_wbv.block_m) K
               (i % config_wbv.block_m + v))))
    ∧ (((wbv_stage_b_init b block_col N K i).1 = true
        ↔ i / config_wbv.block_n < K
          ∧ block_col + i % config_wbv.block_n + config_wbv.vector_width - 1 < N)
      ∧ (wbv_stage_b_init b block_col N K i).2
        = (List.range config_wbv.vector_width).map (fun v =>
            (i / config_wbv.block_n * config_wbv.lds_stride_B
                + i % config_wbv.block_n + v,
             staged_b_value b block_col N (i / config_wbv.block_n) K
               (i % config_wbv.block_n + v))))
    ∧ (((wbv_stage_a_next a block_row M K k_tile i).1 = true
        ↔ block_row + i % config_wbv.block_m + config_wbv.vector_width - 1 < M
          ∧ k_tile + config_wbv.block_k + i / config_wbv.block_m < K)
      ∧ (wbv_stage_a_next a block_row M K k_tile i).2
        = (List.range config_wbv.vector_width).map (fun v =>
            (i / config_wbv.block_m * config_wbv.lds_stride_A
                + i % config_wbv.block_m + v,
             staged_a_value a block_row M
               (k_tile + config_wbv.block_k + i / config_wbv.block_m) K
               (i % config_wbv.block_m + v))))
    ∧ (((wbv_stage_b_next b block_col N K k_tile i).1 = true
        ↔ k_tile + config_wbv.block_k + i / config_wbv.block_n < K
          ∧ block_col + i % config_wbv.block_n + config_wbv.vector_width - 1 < N)
      ∧ (wbv_stage_b_next b block_col N K k_tile i).2
        = (List.range config_wbv.vector_width).map (fun v =>
            (i / config_wbv.block_n * config_wbv.lds_stride_B
                + i % config_wbv.block_n + v,
             staged_b_value b block_col N
               (k_tile + config_wbv.block_k + i / config_wbv.block_n) K
               (i % config_wbv.block_n + v)))) :=
  ⟨wbv_stage_a_init_spec a block_row M K i,
   wbv_stage_b_init_spec b block_col N K i,
   wbv_stage_a_next_spec a block_row M K k_tile i,
   wbv_stage_b_next_spec b block_col N K k_tile i⟩

/-- Counterexample to C3 as stated: in the wmma_prefetch variant's initial A
staging transfer with `block_row = 0`, `M = 8`, `K = 16`, chunk `i = 0`, the
vector straddles the matrix edge (only rows 0..7 exist), yet staged position
`v = 8` — an out-of-bounds position, since `block_row + row + v = 8 ≥ M` —
receives the prior register contents (here 1), not zero: the per-element
zero-writing fallback required by the claim for every vectorized-staging
variant does not exist in this kernel. -/
theorem c3_prefetch_stage_counterexample :
    (prefetch_stage_a_init (fun _ => 1) (fun _ => 0) 0 8 16 0).get? 8
      = some (8, 1)
    ∧ ¬ (0 + 0 + 8 < 8)
    ∧ (1 : ℚ) ≠ 0 := by decide

set_option maxRecDepth 10000 in
set_option maxHeartbeats 1000000 in
/-- C9: the wmma_shared_warp_buf_vec kernel's output depends on the block
scheduling order, so two invocations need not be bit-identical. For
M = 257, N = 1, K = 32 the launch grid is the two blocks (0,0) and (1,0);
because the epilogue guard tests `block_row + warp_m_base + row < M` and
`block_col + n_offset < N` while the store lands at row
`block_row + warp_m_base + wm*16 + row`, column
`block_col + warp_n_base + n_offset`, the two distinct blocks both store to
linear index 256 — a cell inside the true extent M*N — with different values
(4176 from block (0,0), 4368 from block (1,0)), so the final content of that
cell is decided by whichever block the scheduler runs last. `mma` is
instantiated with the projection returning the A fragment, and A holds its
own global index. -/
theorem c9_wbv_scheduling_order_dependent :
    wbv_grid 257 1 = [(0, 0), (1, 0)]
    ∧ (256, (4176 : ℚ)) ∈ wbv_block_writes (fun af _ _ => af) (fun n => (n : ℚ))
        (fun _ => 0) 257 1 32 (0, 0)
    ∧ (256, (4368 : ℚ)) ∈ wbv_block_writes (fun af _ _ => af) (fun n => (n : ℚ))
        (fun _ => 0) 257 1 32 (1, 0)
    ∧ (256 : ℕ) < 257 * 1
    ∧ (4176 : ℚ) ≠ 4368 := by decide

theorem hilbert_d2xy_lt : ∀ (k d : ℕ), d < 4 ^ k →
    (hilbert_d2xy k d).1 < 2 ^ k ∧ (hilbert_d2xy k d).2 < 2 ^ k := by
  intro k
  induction k with
  | zero =>
      intro d hd
      interval_cases d
      exact ⟨Nat.zero_lt_one, Nat.zero_lt_one⟩
  | succ n ih =>
      intro d hd
      have h4 : 0 < (4 : ℕ) ^ n := Nat.pos_pow_of_pos n (by norm_num)
      have hq4 : d / 4 ^ n < 4 := by
        apply Nat.div_lt_of_lt_mul
        calc d < 4 ^ (n + 1) := hd
          _ = 4 ^ n * 4 := by rw [pow_succ]
      have hr := ih (d % 4 ^ n) (Nat.mod_lt _ h4)
      have h2 : (2 : ℕ) ^ (n + 1) = 2 * 2 ^ n := by rw [pow_succ]; ring
      simp only [hilbert_d2xy]
      have hs : 0 < (2 : ℕ) ^ n := Nat.pos_pow_of_pos n (by norm_num)
      interval_cases hqv : (d / 4 ^ n) <;>
        norm_num <;>
        omega

theorem hilbert_d2xy_inj : ∀ (k d1 d2 : ℕ), d1 < 4 ^ k → d2 < 4 ^ k →
    hilbert_d2xy k d1 = hilbert_d2xy k d2 → d1 = d2 := by
  intro k
  induction k with
  | zero => intro d1 d2 h1 h2 _; omega
  | succ n ih =>
      intro d1 d2 h1 h2 heq
      have h4 : 0 < (4 : ℕ) ^ n := Nat.pos_pow_of_pos n (by norm_num)
      have hs : 0 < (2 : ℕ) ^ n := Nat.pos_pow_of_pos n (by norm_num)
      have hq1 : d1 / 4 ^ n < 4 := by
        apply Nat.div_lt_of_lt_mul
        calc d1 < 4 ^ (n + 1) := h1
          _ = 4 ^ n * 4 := by rw [pow_succ]
      have hq2 : d2 / 4 ^ n < 4 := by
        apply Nat.div_lt_of_lt_mul
        calc d2 < 4 ^ (n + 1) := h2
          _ = 4 ^ n * 4 := by rw [pow_succ]
      have hr1 := hilbert_d2xy_lt n (d1 % 4 ^ n) (Nat.mod_lt _ h4)
      have hr2 := hilbert_d2xy_lt n (d2 % 4 ^ n) (Nat.mod_lt _ h4)
      simp only [hilbert_d2xy] at heq
      interval_cases hv1 : (d1 / 4 ^ n) <;> interval_cases hv2 : (d2 / 4 ^ n) <;>
        norm_num [Prod.ext_iff] at heq <;>
        first
          | omega
          | (obtain ⟨e1, e2⟩ := heq
             have hpe : hilbert_d2xy n (d1 % 4 ^ n) = hilbert_d2xy n (d2 % 4 ^ n) := by
               apply Prod.ext <;> omega
             have hmods := ih _ _ (Nat.mod_lt _ h4) (Nat.mod_lt _ h4) hpe
             have hd1 := Nat.div_add_mod d1 (4 ^ n)
             have hd2 := Nat.div_add_mod d2 (4 ^ n)
             rw [hv1] at hd1
             rw [hv2] at hd2
             omega)

theorem hilbert_map_nodup (k : ℕ) :
    ((List.range (4 ^ k)).map (hilbert_d2xy k)).Nodup := by
  apply List.Nodup.map_on ?_ (List.nodup_range _)
  intro x hx y hy hxy
  exact hilbert_d2xy_inj k x y (List.mem_range.mp hx) (List.mem_range.mp hy) hxy

theorem hilbert_map_toFinset (k : ℕ) :
    ((List.range (4 ^ k)).map (hilbert_d2xy k)).toFinset
      = Finset.range (2 ^ k) ×ˢ Finset.range (2 ^ k) := by
  apply Finset.eq_of_subset_of_card_le
  · intro p hp
    rw [List.mem_toFinset] at hp
    obtain ⟨d, hd, rfl⟩ := List.mem_map.mp hp
    have hb := hilbert_d2xy_lt k d (List.mem_range.mp hd)
    rw [Finset.mem_product, Finset.mem_range, Finset.mem_range]
    exact hb
  · rw [Finset.card_product, Finset.card_range,
      List.toFinset_card_of_nodup (hilbert_map_nodup k),
      List.length_map, List.length_range]
    have h42 : (4 : ℕ) ^ k = 2 ^ k * 2 ^ k := by
      rw [show (4 : ℕ) = 2 * 2 from rfl, Nat.mul_pow]
    omega

theorem hilbert_cells_nodup (gm gn : ℕ) : (hilbert_cells gm gn).Nodup :=
  (hilbert_map_nodup _).filter _

theorem hilbert_cells_length (gm gn : ℕ) (hgm : 1 ≤ gm) (hgn : 1 ≤ gn) :
    (hilbert_cells gm gn).length = gm * gn := by
  unfold hilbert_cells
  set k := Nat.clog 2 (max gm gn) with hk
  have hmax : max gm gn ≤ 2 ^ k := Nat.le_pow_clog (by norm_num) _
  have hgm2 : gm ≤ 2 ^ k := le_trans (le_max_left _ _) hmax
  have hgn2 : gn ≤ 2 ^ k := le_trans (le_max_right _ _) hmax
  have hnd : (((List.range (4 ^ k)).map (hilbert_d2xy k)).filter
      (fun p => p.1 < gm && p.2 < gn)).Nodup := (hilbert_map_nodup k).filter _
  rw [← List.toFinset_card_of_nodup hnd, List.toFinset_filter,
    hilbert_map_toFinset k]
  have hfin : (Finset.range (2 ^ k) ×ˢ Finset.range (2 ^ k)).filter
        (fun p => (p.1 < gm && p.2 < gn) = true)
      = Finset.range gm ×ˢ Finset.range gn := by
    ext ⟨x, y⟩
    simp only [Finset.mem_filter, Finset.mem_product, Finset.mem_range,
      Bool.and_eq_true, decide_eq_true_eq]
    constructor
    · rintro ⟨⟨_, _⟩, hx, hy⟩; exact ⟨hx, hy⟩
    · rintro ⟨hx, hy⟩; exact ⟨⟨by omega, by omega⟩, hx, hy⟩
  rw [hfin, Finset.card_product, Finset.card_range, Finset.card_range]

theorem hilbert_cells_mem (gm gn : ℕ) (p : ℕ × ℕ) (hp : p ∈ hilbert_cells gm gn) :
    p.1 < gm ∧ p.2 < gn := by
  unfold hilbert_cells at hp
  have := List.of_mem_filter hp
  simpa using this

/-- C5: restricted to linear tile indices in [0, grid_m * grid_n), the
locality-preserving block scheduler `hilbert_tile_mapping` is a bijection onto
the valid block coordinates: every produced (block_row, block_col) satisfies
0 ≤ block_row < grid_m * block_m and 0 ≤ block_col < grid_n * block_n, both
aligned to tile boundaries (divisible by the tile size), and distinct linear
indices map to distinct coordinates. -/
theorem c5_hilbert_tile_mapping_bijection (bm bn gm gn : ℕ)
    (hbm : 1 ≤ bm) (hbn : 1 ≤ bn) (hgm : 1 ≤ gm) (hgn : 1 ≤ gn) :
    (∀ t, t < gm * gn →
      (hilbert_tile_mapping bm bn t gm gn).1 < gm * bm
      ∧ (hilbert_tile_mapping bm bn t gm gn).2 < gn * bn
      ∧ bm ∣ (hilbert_tile_mapping bm bn t gm gn).1
      ∧ bn ∣ (hilbert_tile_mapping bm bn t gm gn).2)
    ∧ (∀ t1 t2, t1 < gm * gn → t2 < gm * gn →
        hilbert_tile_mapping bm bn t1 gm gn = hilbert_tile_mapping bm bn t2 gm gn →
        t1 = t2) := by
  have hlen := hilbert_cells_length gm gn hgm hgn
  have hget : ∀ t (htl : t < (hilbert_cells gm gn).length),
      (hilbert_cells gm gn).getD t (0, 0)
        = (hilbert_cells gm gn).get ⟨t, htl⟩ := by
    intro t htl
    rw [List.getD_eq_getElem?_getD, List.getElem?_eq_getElem htl]
    rfl
  constructor
  · intro t ht
    have htl : t < (hilbert_cells gm gn).length := by omega
    simp only [hilbert_tile_mapping]
    rw [hget t htl]
    have hmem := List.get_mem (hilbert_cells gm gn) t htl
    have hb := hilbert_cells_mem gm gn _ hmem
    refine ⟨?_, ?_, dvd_mul_left bm _, dvd_mul_left bn _⟩
    · exact Nat.mul_lt_mul_of_lt_of_le hb.1 (le_refl bm) (by omega)
    · exact Nat.mul_lt_mul_of_lt_of_le hb.2 (le_refl bn) (by omega)
  · intro t1 t2 h1 h2 heq
    have htl1 : t1 < (hilbert_cells gm gn).length := by omega
    have htl2 : t2 < (hilbert_cells gm gn).length := by omega
    simp only [hilbert_tile_mapping] at heq
    rw [hget t1 htl1, hget t2 htl2] at heq
    have hinj := List.nodup_iff_injective_get.mp (hilbert_cells_nodup gm gn)
    have hc1 : ((hilbert_cells gm gn).get ⟨t1, htl1⟩).1
        = ((hilbert_cells gm gn).get ⟨t2, htl2⟩).1 :=
      Nat.eq_of_mul_eq_mul_right (by omega) (congrArg Prod.fst heq)
    have hc2 : ((hilbert_cells gm gn).get ⟨t1, htl1⟩).2
        = ((hilbert_cells gm gn).get ⟨t2, htl2⟩).2 :=
      Nat.eq_of_mul_eq_mul_right (by omega) (congrArg Prod.snd heq)
    have := hinj (Prod.ext hc1 hc2)
    exact congrArg Fin.val this


/-- Witness for C5 on a 2×2 grid of 256×256 tiles at tile_id 3. -/
theorem c5_hilbert_tile_mapping_witness :
    (hilbert_tile_mapping 256 256 3 2 2).1 < 2 * 256
    ∧ (hilbert_tile_mapping 256 256 3 2 2).2 < 2 * 256
    ∧ 256 ∣ (hilbert_tile_mapping 256 256 3 2 2).1
    ∧ 256 ∣ (hilbert_tile_mapping 256 256 3 2 2).2 :=
  (c5_hilbert_tile_mapping_bijection 256 256 2 2 (by decide) (by decide)
    (by decide) (by decide)).1 3 (by decide)
